import Mathlib

/-!
Shallow embedding of `src/website/search.js` (class `SonicHubSearch`).

JavaScript strings are modelled as `List Char`, one entry per code point.
`String.prototype.toLowerCase` is modelled by `Char.toLower` (ASCII case
mapping); every non-ASCII character with case is removed by the
normalization filter anyway, so this restriction is invisible to the
functions under study.  The regex classes `\w` and `\s` of
`/[^\w一-鿿\s]/g` are transcribed literally.
-/

namespace SonicHub

/-- A JavaScript string, as its list of characters. -/
abbrev Str := List Char

/-- The regex class `\w` of `search.js` line 25: `[A-Za-z0-9_]`. -/
def jsIsWordChar (c : Char) : Bool :=
  ('a' ≤ c && c ≤ 'z') || ('A' ≤ c && c ≤ 'Z') || ('0' ≤ c && c ≤ '9') || c = '_'

/-- The range `一-鿿` of the regex on `search.js` line 25. -/
def isCJKChar (c : Char) : Bool :=
  '\u4e00' ≤ c && c ≤ '\u9fff'

/-- The regex class `\s` (ECMAScript WhiteSpace ∪ LineTerminator). -/
def jsIsSpace (c : Char) : Bool :=
  c = ' ' || c = '\t' || c = '\n' || c = '\x0b' || c = '\x0c' || c = '\r' ||
  c = '\u00a0' || c = '\u1680' || ('\u2000' ≤ c && c ≤ '\u200a') ||
  c = '\u2028' || c = '\u2029' || c = '\u202f' || c = '\u205f' ||
  c = '\u3000' || c = '\ufeff'

/-- A character kept by `.replace(/[^\w一-鿿\s]/g, '')`
(`search.js` line 25): everything not in the negated class survives. -/
def keepChar (c : Char) : Bool :=
  jsIsWordChar c || isCJKChar c || jsIsSpace c

/-- `String.prototype.trim` (`search.js` line 26): strip leading and
trailing whitespace.  The ECMAScript trim set equals `jsIsSpace`. -/
def jsTrim (l : Str) : Str :=
  (l.dropWhile jsIsSpace).rdropWhile jsIsSpace

/-- `normalizeText(text)` (`search.js` lines 22–27) for a string argument:
`if (!text) return ''` then `toLowerCase().replace(...).trim()`. -/
def normalizeText (t : Str) : Str :=
  if t = [] then [] else jsTrim ((t.map Char.toLower).filter keepChar)

/-- `normalizeText` on an arbitrary JavaScript argument: `null` and
`undefined` (modelled as `none`) are falsy, so `if (!text) return ''`
yields the empty string for them. -/
def normalizeTextJS : Option Str → Str
  | none => []
  | some t => normalizeText t

/-- `String.prototype.includes` (`search.js` line 31): substring test. -/
def containsSubstr (s pat : Str) : Bool :=
  decide (pat <:+: s)

/-- `searchInText(text, keywords)` (`search.js` lines 29–32):
`keywords.some(keyword => normalizedText.includes(keyword))`. -/
def searchInText (text : Str) (keywords : List Str) : Bool :=
  keywords.any (fun keyword => containsSubstr (normalizeText text) keyword)

/-- The scanning loop behind `String.prototype.split(/\s+/)`: a greedy
regex split on whitespace runs, one character at a time.  `inSep` records
whether the previous character belonged to the current (greedy) `\s+`
separator match; `acc` is the current piece, reversed. -/
def splitWsAux : Bool → Str → Str → List Str
  | _, [], acc => [acc.reverse]
  | inSep, c :: cs, acc =>
    if jsIsSpace c then
      if inSep then splitWsAux true cs acc
      else acc.reverse :: splitWsAux true cs []
    else splitWsAux false cs (c :: acc)

/-- `String.prototype.split(/\s+/)` (`search.js` line 45): the pieces of
the string between maximal whitespace runs, keeping an empty piece at
either end when the string starts or ends with whitespace, and `[""]`
for the empty string. -/
def jsSplitWs (l : Str) : List Str :=
  splitWsAux false l []

/-- The keyword list of `search` (`search.js` line 45):
`normalizeText(query).split(/\s+/).filter(k => k.length > 0)`. -/
def searchKeywords (query : Str) : List Str :=
  (jsSplitWs (normalizeText query)).filter (fun k => decide (0 < k.length))

/-- One post of a thread in `search_index.json`. -/
structure Post where
  author : Str
  content : Str
  date : Str
deriving DecidableEq, Repr

/-- One thread of `search_index.json`. -/
structure Thread where
  title : Str
  posts : List Post
deriving DecidableEq, Repr

/-- The search index: `this.index.threads`, in `Object.entries` order
(filename key paired with the thread record). -/
structure SearchIndex where
  threads : List (Str × Thread)
deriving DecidableEq, Repr

/-- A per-post match entry (`postMatches.push(...)`, `search.js`
lines 66–72).  The content entry stores
`post.content.substring(0, 200) + '...'`. -/
inductive PostMatch where
  | author (text : Str)
  | content (text : Str)
deriving DecidableEq, Repr

/-- A per-thread match entry (`matches.push(...)`, `search.js`
lines 56 and 75–81). -/
inductive Match where
  | title (text : Str)
  | post (postIndex : Nat) (author : Str) (date : Str) («matches» : List PostMatch)
deriving DecidableEq, Repr

/-- One search result (`results.push(...)`, `search.js` lines 85–92). -/
structure SearchResult where
  file : Str
  title : Str
  «matches» : List Match
  score : Nat
deriving DecidableEq, Repr

/-- The destructured `options` of `search` with its default values
(`search.js` lines 38–43). -/
structure SearchOptions where
  searchAuthor : Bool := true
  searchTitle : Bool := true
  searchContent : Bool := true
  maxResults : Nat := 50
deriving DecidableEq, Repr

/-- `'...'` appended to the content snippet (`search.js` line 70). -/
def ellipsis : Str := "...".data

/-- The `postMatches` list built for one post (`search.js` lines 60–72):
an author entry when enabled and matching, then a content entry when
enabled and matching. -/
def postMatchList (opts : SearchOptions) (keywords : List Str) (post : Post) :
    List PostMatch :=
  (if opts.searchAuthor && searchInText post.author keywords
    then [PostMatch.author post.author] else []) ++
  (if opts.searchContent && searchInText post.content keywords
    then [PostMatch.content (post.content.take 200 ++ ellipsis)] else [])

/-- The `for` loop over `thread.posts` (`search.js` lines 59–82), carrying
the running index `i`: posts with a non-empty `postMatches` list
contribute a `post` entry to `matches`. -/
def postsMatchList (opts : SearchOptions) (keywords : List Str) :
    Nat → List Post → List Match
  | _, [] => []
  | i, post :: rest =>
    let pms := postMatchList opts keywords post
    if pms = [] then postsMatchList opts keywords (i + 1) rest
    else Match.post i post.author post.date pms ::
      postsMatchList opts keywords (i + 1) rest

/-- The `matches` list built for one thread (`search.js` lines 53–82):
a title entry when enabled and matching, then the post entries. -/
def threadMatchList (opts : SearchOptions) (keywords : List Str)
    (thread : Thread) : List Match :=
  (if opts.searchTitle && searchInText thread.title keywords
    then [Match.title thread.title] else []) ++
  postsMatchList opts keywords 0 thread.posts

/-- The scan over `Object.entries(this.index.threads)` (`search.js`
lines 51–93): threads with a non-empty `matches` list become results,
scored by `matches.length`. -/
def scanThreads (opts : SearchOptions) (keywords : List Str) :
    List (Str × Thread) → List SearchResult
  | [] => []
  | (filename, thread) :: rest =>
    let ms := threadMatchList opts keywords thread
    if ms = [] then scanThreads opts keywords rest
    else { file := filename, title := thread.title, «matches» := ms,
           score := ms.length } :: scanThreads opts keywords rest

/-- One step of `results.sort((a, b) => b.score - a.score)`: insert a
result into an already-sorted list, before the first element whose score
is at most its own.  Folded over the list from the right this is the
unique stable descending-score sort that ECMAScript `Array.prototype.sort`
must produce with this comparator. -/
def insertByScore (r : SearchResult) : List SearchResult → List SearchResult
  | [] => [r]
  | x :: xs => if x.score ≤ r.score then r :: x :: xs else x :: insertByScore r xs

/-- `results.sort((a, b) => b.score - a.score)` (`search.js` line 97):
stable sort by non-increasing score. -/
def sortByScoreDesc : List SearchResult → List SearchResult
  | [] => []
  | x :: xs => insertByScore x (sortByScoreDesc xs)

/-- `search(query, options)` (`search.js` lines 34–98) up to but not
including the final `.slice(0, maxResults)`.  The index argument is the
value of `this.index` after `await this.loadIndex()`. -/
def searchAll (idx : Option SearchIndex) (query : Str) (opts : SearchOptions) :
    List SearchResult :=
  match idx with
  | none => []
  | some index =>
    if jsTrim query = [] then []
    else
      let keywords := searchKeywords query
      if keywords.length = 0 then []
      else sortByScoreDesc (scanThreads opts keywords index.threads)

/-- `search(query, options)` (`search.js` lines 34–98): the sorted scan
results truncated by `.slice(0, maxResults)`. -/
def search (idx : Option SearchIndex) (query : Str) (opts : SearchOptions) :
    List SearchResult :=
  (searchAll idx query opts).take opts.maxResults

/-! ## The fetch-and-cache state of `loadIndex` -/

/-- The mutable fields of a `SonicHubSearch` object (`search.js`
lines 3–6). -/
structure SearchState where
  index : Option SearchIndex
  isLoading : Bool
deriving DecidableEq, Repr

/-- The state set up by the constructor (`search.js` lines 3–6). -/
def initialState : SearchState :=
  { index := none, isLoading := false }

/-- One completed run of `loadIndex` (`search.js` lines 8–20).
`fetched` is the outcome of `fetch` plus `response.json()`: `none` when
either throws (the `catch` swallows the error and `this.index` is left
untouched).  The boolean records whether the body past the early-return
guard ran, i.e. whether a fetch was performed. -/
def loadIndex (st : SearchState) (fetched : Option SearchIndex) :
    SearchState × Bool :=
  if st.index.isSome || st.isLoading then (st, false)
  else
    ({ index := match fetched with
        | some parsed => some parsed
        | none => st.index,
       isLoading := false }, true)

/-! ## HTML rendering (`formatSearchResults`, `escapeHtml`) -/

/-- `escapeHtml` on one character: assigning `textContent` and reading
back `innerHTML` (`search.js` lines 142–146) HTML-escapes `&`, `<`, `>`
and no-break space. -/
def escapeHtmlChar (c : Char) : Str :=
  if c = '&' then "&amp;".data
  else if c = '\xa0' then "&nbsp;".data
  else if c = '<' then "&lt;".data
  else if c = '>' then "&gt;".data
  else [c]

/-- `escapeHtml(text)` (`search.js` lines 142–146). -/
def escapeHtml (text : Str) : Str :=
  text.flatMap escapeHtmlChar

/-- The no-results block (`search.js` line 103). -/
def noResultsHtml : Str :=
  "<div class=\"search-no-results\">找不到符合的搜尋結果。</div>".data

/-- The results header (`search.js` line 106). -/
def headerHtml (count : Nat) : Str :=
  "<div class=\"search-results-header\">找到 ".data ++ (Nat.repr count).data ++
    " 個相關結果：</div>".data

/-- The opening markup of one result item (`search.js` lines 109–114). -/
def resultItemOpenHtml (file title : Str) : Str :=
  "\n                <div class=\"search-result-item\">\n                    <div class=\"search-result-title\">\n                        <a href=\"".data ++
  file ++ "\" target=\"_blank\">".data ++ escapeHtml title ++
  "</a>\n                    </div>\n                    <div class=\"search-result-matches\">".data

/-- The closing markup of one result item (`search.js` lines 133–134). -/
def resultItemCloseHtml : Str :=
  "</div>\n                </div>".data

/-- A rendered title match (`search.js` line 118). -/
def titleMatchHtml (text : Str) : Str :=
  "<div class=\"search-match search-match-title\">📋 標題符合: ".data ++
    escapeHtml text ++ "</div>".data

/-- The opening markup of a rendered post match (`search.js`
lines 120–121). -/
def postMatchOpenHtml (author date : Str) : Str :=
  "<div class=\"search-match search-match-post\">\n                        <div class=\"search-post-info\">👤 ".data ++
  escapeHtml author ++ " | 🕐 ".data ++ date ++ "</div>".data

/-- A rendered per-post match entry (`search.js` lines 123–129). -/
def renderPostMatch : PostMatch → Str
  | PostMatch.author text =>
    "<div class=\"search-post-match\">👤 作者符合: ".data ++ escapeHtml text ++
      "</div>".data
  | PostMatch.content text =>
    "<div class=\"search-post-match\">📝 內容符合: ".data ++ escapeHtml text ++
      "</div>".data

/-- One rendered entry of `result.matches` (`search.js` lines 116–131). -/
def renderMatch : Match → Str
  | Match.title text => titleMatchHtml text
  | Match.post _ author date pms =>
    postMatchOpenHtml author date ++
      pms.foldl (fun html pm => html ++ renderPostMatch pm) [] ++ "</div>".data

/-- One rendered result item (`search.js` lines 108–134): the body of
the `for (const result of results)` loop. -/
def renderResultItem (r : SearchResult) : Str :=
  resultItemOpenHtml r.file r.title ++
    r.«matches».foldl (fun html m => html ++ renderMatch m) [] ++
    resultItemCloseHtml

/-- `formatSearchResults(results)` (`search.js` lines 101–139). -/
def formatSearchResults (results : List SearchResult) : Str :=
  if results.length = 0 then noResultsHtml
  else results.foldl (fun html r => html ++ renderResultItem r)
    (headerHtml results.length)

/-! ## Definitions taken from the specification's words

These restate what the spec and claims say, independently of the code
above; the theorems compare the two. -/

/-- From the spec: a thread matches when some enabled field matches —
the title (when `searchTitle`), some post's author (when `searchAuthor`),
or some post's content (when `searchContent`). -/
def threadHasMatch (opts : SearchOptions) (keywords : List Str)
    (thread : Thread) : Bool :=
  (opts.searchTitle && searchInText thread.title keywords) ||
  thread.posts.any (fun post =>
    (opts.searchAuthor && searchInText post.author keywords) ||
    (opts.searchContent && searchInText post.content keywords))

/-- Tokenizer for the spec's words: accumulate the current run of
non-whitespace characters (reversed) and flush it at each whitespace
character, discarding empty runs. -/
def wsTokensAux : Str → Str → List Str
  | [], acc => if acc = [] then [] else [acc.reverse]
  | c :: cs, acc =>
    if jsIsSpace c then
      if acc = [] then wsTokensAux cs []
      else acc.reverse :: wsTokensAux cs []
    else wsTokensAux cs (c :: acc)

/-- From the spec: the maximal whitespace-free runs of a string — "the
normalized query split on runs of whitespace with empty tokens
removed". -/
def wsTokens (l : Str) : List Str :=
  wsTokensAux l []

/-- From the claim: an ASCII word character, by code point. -/
def asciiWordCharSpec (c : Char) : Bool :=
  (97 ≤ c.toNat && c.toNat ≤ 122) || (65 ≤ c.toNat && c.toNat ≤ 90) ||
  (48 ≤ c.toNat && c.toNat ≤ 57) || c.toNat = 95

/-- From the claim: a whitespace character, by code point
(ECMAScript WhiteSpace ∪ LineTerminator). -/
def whitespaceCharSpec (c : Char) : Bool :=
  c.toNat = 32 || c.toNat = 9 || c.toNat = 10 || c.toNat = 11 ||
  c.toNat = 12 || c.toNat = 13 || c.toNat = 0xa0 || c.toNat = 0x1680 ||
  (0x2000 ≤ c.toNat && c.toNat ≤ 0x200a) || c.toNat = 0x2028 ||
  c.toNat = 0x2029 || c.toNat = 0x202f || c.toNat = 0x205f ||
  c.toNat = 0x3000 || c.toNat = 0xfeff

/-- From the claim: a character that normalization keeps — an ASCII word
character, a CJK ideograph in U+4E00–U+9FFF, or whitespace. -/
def keepCharSpec (c : Char) : Bool :=
  asciiWordCharSpec c || (0x4e00 ≤ c.toNat && c.toNat ≤ 0x9fff) ||
    whitespaceCharSpec c

/-- From the claim: trim leading and trailing whitespace. -/
def trimSpec (l : Str) : Str :=
  (l.dropWhile whitespaceCharSpec).rdropWhile whitespaceCharSpec

/-- From the claim: the described normalization — lowercase, remove every
character outside the kept classes, trim; empty string for null,
undefined, or empty input. -/
def normalizeTextSpec : Option Str → Str
  | none => []
  | some t =>
    if t = [] then []
    else trimSpec ((t.map Char.toLower).filter keepCharSpec)

/-! ## Concrete values used by the witnesses -/

/-- A sample post. -/
def demoPost : Post :=
  { author := "Yuuta".data, content := "I love sonic games".data,
    date := "2020-01-01".data }

/-- A sample thread that matches the query `sonic`. -/
def demoThread : Thread :=
  { title := "Sonic news".data, posts := [demoPost] }

/-- A sample thread that does not match the query `sonic`. -/
def demoThreadOther : Thread :=
  { title := "Other talk".data, posts := [] }

/-- A sample index holding both sample threads. -/
def demoIndex : SearchIndex :=
  { threads := [("a.html".data, demoThread), ("b.html".data, demoThreadOther)] }

/-! ## Character-class facts -/

theorem char_le_iff (a b : Char) : a ≤ b ↔ a.toNat ≤ b.toNat := by
  rw [Char.le_def, UInt32.le_def, BitVec.le_def]; rfl

theorem char_eq_iff (a b : Char) : a = b ↔ a.toNat = b.toNat := by
  constructor
  · rintro rfl; rfl
  · intro h; exact Char.ext (UInt32.ext h)

theorem jsIsSpace_eq_spec (c : Char) : jsIsSpace c = whitespaceCharSpec c := by
  rw [Bool.eq_iff_iff]
  simp only [jsIsSpace, whitespaceCharSpec, Bool.or_eq_true, Bool.and_eq_true,
    decide_eq_true_eq, char_le_iff, char_eq_iff,
    show (' ' : Char).toNat = 32 from rfl, show ('\t' : Char).toNat = 9 from rfl,
    show ('\n' : Char).toNat = 10 from rfl, show ('\x0b' : Char).toNat = 11 from rfl,
    show ('\x0c' : Char).toNat = 12 from rfl, show ('\r' : Char).toNat = 13 from rfl,
    show (' ' : Char).toNat = 0xa0 from rfl,
    show (' ' : Char).toNat = 0x1680 from rfl,
    show (' ' : Char).toNat = 0x2000 from rfl,
    show (' ' : Char).toNat = 0x200a from rfl,
    show (' ' : Char).toNat = 0x2028 from rfl,
    show (' ' : Char).toNat = 0x2029 from rfl,
    show (' ' : Char).toNat = 0x202f from rfl,
    show (' ' : Char).toNat = 0x205f from rfl,
    show ('　' : Char).toNat = 0x3000 from rfl,
    show ('﻿' : Char).toNat = 0xfeff from rfl]

theorem keepChar_eq_spec (c : Char) : keepChar c = keepCharSpec c := by
  rw [Bool.eq_iff_iff]
  simp only [keepChar, keepCharSpec, jsIsWordChar, isCJKChar, asciiWordCharSpec,
    jsIsSpace_eq_spec, Bool.or_eq_true, Bool.and_eq_true, decide_eq_true_eq,
    char_le_iff, char_eq_iff,
    show ('a' : Char).toNat = 97 from rfl, show ('z' : Char).toNat = 122 from rfl,
    show ('A' : Char).toNat = 65 from rfl, show ('Z' : Char).toNat = 90 from rfl,
    show ('0' : Char).toNat = 48 from rfl, show ('9' : Char).toNat = 57 from rfl,
    show ('_' : Char).toNat = 95 from rfl,
    show ('一' : Char).toNat = 0x4e00 from rfl,
    show ('鿿' : Char).toNat = 0x9fff from rfl]

theorem jsTrim_eq_trimSpec (l : Str) : jsTrim l = trimSpec l := by
  have h : jsIsSpace = whitespaceCharSpec := funext jsIsSpace_eq_spec
  rw [jsTrim, trimSpec, h]

/-- C6: `normalizeText` is exactly the described normalization —
lowercase, keep only ASCII word characters, CJK ideographs in
U+4E00–U+9FFF and whitespace, trim; the empty string for null, undefined
or empty input. -/
theorem normalizeText_matches_spec (t : Option Str) :
    normalizeTextJS t = normalizeTextSpec t := by
  rcases t with _ | t
  · rfl
  · have hk : keepChar = keepCharSpec := funext keepChar_eq_spec
    simp only [normalizeTextJS, normalizeText, normalizeTextSpec,
      jsTrim_eq_trimSpec, hk]

/-! ## Substring matching -/

/-- C4: `searchInText` reports a match exactly when some keyword occurs
verbatim as a contiguous substring of the normalized text — no fuzzy or
partial matching. -/
theorem searchInText_iff_substring (text : Str) (keywords : List Str) :
    searchInText text keywords = true ↔
      ∃ k ∈ keywords, k <:+: normalizeText text := by
  simp [searchInText, containsSubstr, List.any_eq_true]

/-! ## Degenerate inputs -/

/-- C8: `search` degrades to the empty list whenever the index is not
loaded, the query trims to nothing, or normalization leaves no
keywords. -/
theorem search_empty_on_degenerate (idx : Option SearchIndex) (query : Str)
    (opts : SearchOptions)
    (h : idx = none ∨ jsTrim query = [] ∨ searchKeywords query = []) :
    search idx query opts = [] := by
  rcases idx with _ | index
  · simp [search, searchAll]
  · rcases h with h | h | h
    · exact absurd h (by simp)
    · simp [search, searchAll, h]
    · by_cases htr : jsTrim query = [] <;> simp [search, searchAll, htr, h]

/-- Witness for C8 at a concrete input. -/
theorem search_empty_on_degenerate_witness :
    search none "sonic".data { } = [] :=
  search_empty_on_degenerate none "sonic".data { } (Or.inl rfl)

/-! ## The sort -/

theorem insertByScore_perm (r : SearchResult) (l : List SearchResult) :
    (insertByScore r l).Perm (r :: l) := by
  induction l with
  | nil => exact List.Perm.refl _
  | cons x xs ih =>
    simp only [insertByScore]
    split
    · exact List.Perm.refl _
    · exact (ih.cons x).trans (List.Perm.swap r x xs)

theorem sortByScoreDesc_perm (l : List SearchResult) :
    (sortByScoreDesc l).Perm l := by
  induction l with
  | nil => exact List.Perm.refl _
  | cons x xs ih => exact (insertByScore_perm x _).trans (ih.cons x)

theorem insertByScore_pairwise (r : SearchResult) (l : List SearchResult)
    (h : l.Pairwise (fun a b => b.score ≤ a.score)) :
    (insertByScore r l).Pairwise (fun a b => b.score ≤ a.score) := by
  induction l with
  | nil => simp [insertByScore]
  | cons x xs ih =>
    rcases h with _ | ⟨hx, hxs⟩
    simp only [insertByScore]
    split
    · rename_i h2
      refine List.Pairwise.cons ?_ (List.Pairwise.cons hx hxs)
      intro y hy
      rcases List.mem_cons.mp hy with rfl | hy
      · exact h2
      · exact le_trans (hx y hy) h2
    · rename_i h2
      refine List.Pairwise.cons ?_ (ih hxs)
      intro y hy
      rcases List.mem_cons.mp ((insertByScore_perm r xs).mem_iff.mp hy) with rfl | hy
      · omega
      · exact hx y hy

theorem sortByScoreDesc_pairwise (l : List SearchResult) :
    (sortByScoreDesc l).Pairwise (fun a b => b.score ≤ a.score) := by
  induction l with
  | nil => exact List.Pairwise.nil
  | cons x xs ih => exact insertByScore_pairwise x _ ih

theorem insertByScore_filter_score (r : SearchResult) (l : List SearchResult)
    (s : Nat) :
    (insertByScore r l).filter (fun x => x.score == s) =
      (r :: l).filter (fun x => x.score == s) := by
  induction l with
  | nil => rfl
  | cons x xs ih =>
    simp only [insertByScore]
    split
    · rfl
    · rename_i h2
      by_cases hr : r.score = s
      · have hx : (x.score == s) = false := by
          simp only [beq_eq_false_iff_ne, ne_eq]
          omega
        simp [List.filter_cons, hx, hr, ih]
      · have hrb : (r.score == s) = false := by
          simp only [beq_eq_false_iff_ne, ne_eq]
          omega
        simp [List.filter_cons, hrb, ih]

theorem sortByScoreDesc_filter_score (l : List SearchResult) (s : Nat) :
    (sortByScoreDesc l).filter (fun x => x.score == s) =
      l.filter (fun x => x.score == s) := by
  induction l with
  | nil => rfl
  | cons x xs ih =>
    simp only [sortByScoreDesc, insertByScore_filter_score, List.filter_cons, ih]

/-! ## Scores are match counts -/

theorem scanThreads_score (opts : SearchOptions) (keywords : List Str) :
    ∀ (threads : List (Str × Thread)) (r : SearchResult),
      r ∈ scanThreads opts keywords threads → r.score = r.«matches».length := by
  intro threads
  induction threads with
  | nil => simp [scanThreads]
  | cons e rest ih =>
    rcases e with ⟨fn, th⟩
    intro r hr
    simp only [scanThreads] at hr
    split at hr
    · exact ih r hr
    · rcases List.mem_cons.mp hr with rfl | hr
      · rfl
      · exact ih r hr

theorem mem_searchAll_mem_scan (idx : SearchIndex) (query : Str)
    (opts : SearchOptions) (r : SearchResult)
    (h : r ∈ searchAll (some idx) query opts) :
    r ∈ scanThreads opts (searchKeywords query) idx.threads := by
  simp only [searchAll] at h
  split at h
  · simp at h
  · split at h
    · simp at h
    · exact (sortByScoreDesc_perm _).mem_iff.mp h

/-- C2: every returned result is scored by its number of match entries,
the returned list is sorted by non-increasing score, and the sort changes
nothing else — for every score value it preserves the scan order of the
results carrying that score. -/
theorem search_score_and_order (idx : Option SearchIndex) (query : Str)
    (opts : SearchOptions) :
    (search idx query opts).all
        (fun r => r.score == r.«matches».length) = true ∧
    (search idx query opts).Pairwise (fun a b => b.score ≤ a.score) ∧
    ∀ (l : List SearchResult) (s : Nat),
      (sortByScoreDesc l).filter (fun x => x.score == s) =
        l.filter (fun x => x.score == s) := by
  refine ⟨?_, ?_, sortByScoreDesc_filter_score⟩
  · rw [List.all_eq_true]
    intro r hr
    have hr' : r ∈ searchAll idx query opts :=
      List.mem_of_mem_take hr
    rcases idx with _ | index
    · simp [searchAll] at hr'
    · have := scanThreads_score opts (searchKeywords query) index.threads r
        (mem_searchAll_mem_scan index query opts r hr')
      simpa using this
  · apply List.Pairwise.sublist (List.take_sublist _ _)
    rcases idx with _ | index
    · exact List.Pairwise.nil
    · simp only [searchAll]
      split
      · exact List.Pairwise.nil
      · split
        · exact List.Pairwise.nil
        · exact sortByScoreDesc_pairwise _

/-! ## Tokenization -/

theorem splitWsAux_spec (l : Str) :
    (∀ acc : Str,
      (splitWsAux false l acc).filter (fun k => decide (0 < k.length)) =
        wsTokensAux l acc) ∧
    (splitWsAux true l []).filter (fun k => decide (0 < k.length)) =
      wsTokensAux l [] := by
  induction l with
  | nil =>
    constructor
    · intro acc
      by_cases h : acc = [] <;>
        simp [splitWsAux, wsTokensAux, h, List.length_pos]
    · simp [splitWsAux, wsTokensAux]
  | cons c cs ih =>
    obtain ⟨ihF, ihT⟩ := ih
    by_cases hsp : jsIsSpace c
    · constructor
      · intro acc
        simp only [splitWsAux, wsTokensAux, hsp, if_true, Bool.false_eq_true,
          if_false, List.filter_cons]
        rw [ihT]
        by_cases h : acc = [] <;> simp [h]
      · simp only [splitWsAux, wsTokensAux, hsp, if_true]
        rw [ihT]
    · constructor
      · intro acc
        simp only [splitWsAux, wsTokensAux, hsp, Bool.false_eq_true, if_false]
        exact ihF (c :: acc)
      · simp only [splitWsAux, wsTokensAux, hsp, Bool.false_eq_true, if_false]
        exact ihF [c]

theorem jsSplitWs_filter (l : Str) :
    (jsSplitWs l).filter (fun k => decide (0 < k.length)) = wsTokens l := by
  rw [jsSplitWs, wsTokens]
  exact (splitWsAux_spec l).1 []

/-- C3: the keyword list of `search` is exactly the normalized query
split on runs of whitespace with empty tokens removed — no stemming,
n-grams, or punctuation-aware splitting. -/
theorem searchKeywords_eq_wsTokens (query : Str) :
    searchKeywords query = wsTokens (normalizeText query) := by
  rw [searchKeywords, jsSplitWs_filter]

/-! ## Exactness of the scan -/

theorem postMatchList_eq_nil_iff (opts : SearchOptions) (keywords : List Str)
    (post : Post) :
    postMatchList opts keywords post = [] ↔
      (opts.searchAuthor && searchInText post.author keywords) = false ∧
      (opts.searchContent && searchInText post.content keywords) = false := by
  unfold postMatchList
  by_cases h1 : opts.searchAuthor && searchInText post.author keywords <;>
    by_cases h2 : opts.searchContent && searchInText post.content keywords <;>
      simp [h1, h2]

theorem postsMatchList_eq_nil_iff (opts : SearchOptions) (keywords : List Str) :
    ∀ (i : Nat) (posts : List Post),
      postsMatchList opts keywords i posts = [] ↔
        ∀ p ∈ posts, postMatchList opts keywords p = [] := by
  intro i posts
  induction posts generalizing i with
  | nil => simp [postsMatchList]
  | cons p ps ih =>
    simp only [postsMatchList]
    by_cases h : postMatchList opts keywords p = []
    · simp only [h, if_true]
      rw [ih (i + 1)]
      simp [h]
    · simp only [h, Bool.false_eq_true, if_false]
      constructor
      · intro hc; exact absurd hc (List.cons_ne_nil _ _)
      · intro hall; exact absurd (hall p (List.mem_cons_self p ps)) h

theorem threadMatchList_eq_nil_iff (opts : SearchOptions) (keywords : List Str)
    (thread : Thread) :
    threadMatchList opts keywords thread = [] ↔
      threadHasMatch opts keywords thread = false := by
  unfold threadMatchList threadHasMatch
  rw [List.append_eq_nil, postsMatchList_eq_nil_iff]
  by_cases ht : (opts.searchTitle && searchInText thread.title keywords) = true
  · simp [ht]
  · simp only [Bool.not_eq_true] at ht
    simp [ht, postMatchList_eq_nil_iff]

theorem scanThreads_map_file (opts : SearchOptions) (keywords : List Str) :
    ∀ threads : List (Str × Thread),
      (scanThreads opts keywords threads).map SearchResult.file =
        (threads.filter (fun e => threadHasMatch opts keywords e.2)).map
          Prod.fst := by
  intro threads
  induction threads with
  | nil => rfl
  | cons e rest ih =>
    rcases e with ⟨fn, th⟩
    simp only [scanThreads, List.filter_cons]
    by_cases h : threadMatchList opts keywords th = []
    · have hm : threadHasMatch opts keywords th = false :=
        (threadMatchList_eq_nil_iff opts keywords th).mp h
      simp [h, hm, ih]
    · have hm : threadHasMatch opts keywords th = true := by
        rcases hb : threadHasMatch opts keywords th with _ | _
        · exact absurd ((threadMatchList_eq_nil_iff opts keywords th).mpr hb) h
        · rfl
      simp [h, hm, List.map_cons, ih]

/-- C1: before truncation, `search` returns (a reordering of) the scan
list, and the scan examines every thread of the index, keeping exactly
those threads for which some enabled field matches. -/
theorem search_scan_exact (index : SearchIndex) (query : Str)
    (opts : SearchOptions) (hkw : searchKeywords query ≠ [])
    (htr : jsTrim query ≠ []) :
    (searchAll (some index) query opts).Perm
      (scanThreads opts (searchKeywords query) index.threads) ∧
    (scanThreads opts (searchKeywords query) index.threads).map
        SearchResult.file =
      (index.threads.filter
        (fun e => threadHasMatch opts (searchKeywords query) e.2)).map
        Prod.fst := by
  constructor
  · have hlen : ¬(searchKeywords query).length = 0 := by
      simpa [List.length_eq_zero] using hkw
    simp only [searchAll, htr, hlen, if_false]
    exact sortByScoreDesc_perm _
  · exact scanThreads_map_file opts (searchKeywords query) index.threads

/-- Witness for C1 at a concrete index and query. -/
theorem search_scan_exact_witness :
    (searchAll (some demoIndex) "sonic".data { }).Perm
      (scanThreads { } (searchKeywords "sonic".data) demoIndex.threads) ∧
    (scanThreads { } (searchKeywords "sonic".data) demoIndex.threads).map
        SearchResult.file =
      (demoIndex.threads.filter
        (fun e => threadHasMatch { } (searchKeywords "sonic".data) e.2)).map
        Prod.fst :=
  search_scan_exact demoIndex "sonic".data { } (by decide) (by decide)

/-! ## The fetch-and-cache behaviour of `loadIndex` -/

/-- C5 counterexample: a `loadIndex` call whose fetch fails completes
with the index still unset, and a subsequent call does perform a fetch
and does change the cached index — so the index is not fetched at most
once per page session. -/
theorem loadIndex_refetches_after_failure :
    (loadIndex initialState none).2 = true ∧
    (loadIndex ((loadIndex initialState none).1)
        (some { threads := [] })).2 = true ∧
    (loadIndex ((loadIndex initialState none).1)
        (some { threads := [] })).1.index = some { threads := [] } := by
  exact ⟨rfl, rfl, rfl⟩

/-- C5 as amended: once `loadIndex` has cached an index, every later
call performs no fetch and leaves the state — in particular the cached
index — unchanged. -/
theorem loadIndex_no_refetch_once_loaded (st : SearchState)
    (fetched : Option SearchIndex) (idx : SearchIndex)
    (h : st.index = some idx) :
    loadIndex st fetched = (st, false) := by
  simp [loadIndex, h]

/-- Witness for the amended C5 at a concrete state. -/
theorem loadIndex_no_refetch_once_loaded_witness :
    loadIndex { index := some demoIndex, isLoading := false } none =
      ({ index := some demoIndex, isLoading := false }, false) :=
  loadIndex_no_refetch_once_loaded _ none demoIndex rfl

/-! ## Truncation -/

/-- C9: `search` returns the sorted result list truncated to at most
`maxResults` entries (the highest-scoring prefix), and the default
`maxResults` is 50. -/
theorem search_truncates_to_maxResults (idx : Option SearchIndex)
    (query : Str) (opts : SearchOptions) :
    search idx query opts = (searchAll idx query opts).take opts.maxResults ∧
    (search idx query opts).length ≤ opts.maxResults ∧
    (searchAll idx query opts).Pairwise (fun a b => b.score ≤ a.score) ∧
    ({ } : SearchOptions).maxResults = 50 := by
  refine ⟨rfl, ?_, ?_, rfl⟩
  · simp only [search, List.length_take]
    exact min_le_left _ _
  · rcases idx with _ | index
    · exact List.Pairwise.nil
    · simp only [searchAll]
      split
      · exact List.Pairwise.nil
      · split
        · exact List.Pairwise.nil
        · exact sortByScoreDesc_pairwise _

/-! ## Rendering -/

theorem foldl_append_eq_flatten {α : Type} (f : α → Str) :
    ∀ (l : List α) (init : Str),
      l.foldl (fun html x => html ++ f x) init = init ++ (l.map f).flatten := by
  intro l
  induction l with
  | nil => intro init; simp
  | cons x xs ih =>
    intro init
    simp only [List.foldl_cons, List.map_cons, List.flatten_cons]
    rw [ih (init ++ f x), List.append_assoc]

/-- C7: `formatSearchResults` renders the no-results block exactly for an
empty result list, and otherwise a header followed by one item per
result, each item holding the result's title link and one rendered entry
per match. -/
theorem formatSearchResults_structure (results : List SearchResult)
    (hne : results ≠ []) :
    formatSearchResults [] = noResultsHtml ∧
    formatSearchResults results ≠ noResultsHtml ∧
    formatSearchResults results =
      headerHtml results.length ++ (results.map renderResultItem).flatten ∧
    ∀ r : SearchResult,
      renderResultItem r =
        resultItemOpenHtml r.file r.title ++
          (r.«matches».map renderMatch).flatten ++ resultItemCloseHtml := by
  have hlen : ¬results.length = 0 := by
    simpa [List.length_eq_zero] using hne
  have hfmt : formatSearchResults results =
      headerHtml results.length ++ (results.map renderResultItem).flatten := by
    rw [formatSearchResults, if_neg hlen, foldl_append_eq_flatten]
  refine ⟨rfl, ?_, hfmt, ?_⟩
  · rw [hfmt, headerHtml]
    intro hcontra
    have h20 := congrArg (List.take 20) hcontra
    rw [List.append_assoc, List.append_assoc,
      List.take_append_of_le_length (by decide)] at h20
    exact absurd h20 (by decide)
  · intro r
    rw [renderResultItem, foldl_append_eq_flatten]
    simp

/-- Witness for C7 at a concrete non-empty result list. -/
theorem formatSearchResults_structure_witness :
    formatSearchResults [] = noResultsHtml ∧
    formatSearchResults
        [{ file := "a.html".data, title := "T".data,
           «matches» := [Match.title "T".data], score := 1 }] ≠
      noResultsHtml ∧
    formatSearchResults
        [{ file := "a.html".data, title := "T".data,
           «matches» := [Match.title "T".data], score := 1 }] =
      headerHtml 1 ++
        ([{ file := "a.html".data, title := "T".data,
            «matches» := [Match.title "T".data],
            score := 1 }].map renderResultItem).flatten ∧
    ∀ r : SearchResult,
      renderResultItem r =
        resultItemOpenHtml r.file r.title ++
          (r.«matches».map renderMatch).flatten ++ resultItemCloseHtml :=
  formatSearchResults_structure _ (by decide)

/-! ## Idempotence of normalization -/

theorem toNat_ofNat_of_lt (n : Nat) (h : n < 55296) :
    (Char.ofNat n).toNat = n := by
  unfold Char.ofNat
  rw [dif_pos (Or.inl h)]
  simp [Char.ofNatAux, Char.toNat, UInt32.toNat]

theorem toLower_toLower (c : Char) :
    Char.toLower (Char.toLower c) = Char.toLower c := by
  simp only [Char.toLower]
  by_cases h : c.toNat ≥ 65 ∧ c.toNat ≤ 90
  · rw [if_pos h]
    have ht : (Char.ofNat (c.toNat + 32)).toNat = c.toNat + 32 :=
      toNat_ofNat_of_lt _ (by omega)
    rw [if_neg (by rw [ht]; omega)]
  · rw [if_neg h, if_neg h]

theorem mem_of_mem_jsTrim (c : Char) (l : Str) (h : c ∈ jsTrim l) : c ∈ l := by
  rw [jsTrim] at h
  exact (List.dropWhile_sublist _).subset
    ((List.rdropWhile_prefix jsIsSpace _).sublist.subset h)

theorem mem_normalizeText (t : Str) (c : Char) (h : c ∈ normalizeText t) :
    keepChar c = true ∧ Char.toLower c = c := by
  rw [normalizeText] at h
  split at h
  · simp at h
  · have h1 : c ∈ (t.map Char.toLower).filter keepChar :=
      mem_of_mem_jsTrim c _ h
    have h2 := List.of_mem_filter h1
    have h3 : c ∈ t.map Char.toLower := List.mem_of_mem_filter h1
    obtain ⟨d, _, rfl⟩ := List.mem_map.mp h3
    exact ⟨h2, toLower_toLower d⟩

theorem map_filter_id (l : Str)
    (h : ∀ x ∈ l, keepChar x = true ∧ Char.toLower x = x) :
    (l.map Char.toLower).filter keepChar = l := by
  have hmap : l.map Char.toLower = l :=
    (List.map_congr_left fun a ha => (h a ha).2).trans (List.map_id l)
  rw [hmap]
  exact List.filter_eq_self.mpr fun a ha => (h a ha).1

theorem dropWhile_dropWhile (p : Char → Bool) (l : Str) :
    (l.dropWhile p).dropWhile p = l.dropWhile p := by
  induction l with
  | nil => rfl
  | cons c cs ih =>
    by_cases h : p c
    · simp [List.dropWhile_cons, h, ih]
    · simp [List.dropWhile_cons, h]

theorem rdropWhile_rdropWhile (p : Char → Bool) (l : Str) :
    (l.rdropWhile p).rdropWhile p = l.rdropWhile p := by
  simp [List.rdropWhile, dropWhile_dropWhile]

theorem dropWhile_head_false (p : Char → Bool) (l : Str) (c : Char) (cs : Str)
    (h : l.dropWhile p = c :: cs) : p c = false := by
  have h2 := List.head_dropWhile_not p l (by rw [h]; simp)
  have h3 : (l.dropWhile p).head (by rw [h]; simp) = c := by simp [h]
  rw [h3] at h2
  exact h2

theorem jsTrim_jsTrim (l : Str) : jsTrim (jsTrim l) = jsTrim l := by
  have hstep : (jsTrim l).dropWhile jsIsSpace = jsTrim l := by
    rcases hb : jsTrim l with _ | ⟨c, cs⟩
    · rfl
    · rw [jsTrim] at hb
      obtain ⟨t, ht⟩ := List.rdropWhile_prefix jsIsSpace (l.dropWhile jsIsSpace)
      rw [hb] at ht
      have hc : jsIsSpace c = false :=
        dropWhile_head_false jsIsSpace l c (cs ++ t) (by rw [← ht]; simp)
      simp [List.dropWhile_cons, hc]
  rw [jsTrim, hstep, jsTrim]
  exact rdropWhile_rdropWhile jsIsSpace _

theorem normalizeText_ne_nil_eq (t : Str) (h : normalizeText t ≠ []) :
    normalizeText t = jsTrim ((t.map Char.toLower).filter keepChar) := by
  rw [normalizeText]
  split
  · rename_i ht
    rw [normalizeText, if_pos ht] at h
    exact absurd rfl h
  · rfl

theorem normalizeText_idem (t : Str) :
    normalizeText (normalizeText t) = normalizeText t := by
  rcases hn : normalizeText t with _ | ⟨c, cs⟩
  · rw [normalizeText]; simp
  · have hmem : ∀ x ∈ c :: cs, keepChar x = true ∧ Char.toLower x = x := by
      intro x hx
      exact mem_normalizeText t x (hn ▸ hx)
    rw [normalizeText, if_neg (List.cons_ne_nil c cs), map_filter_id _ hmem]
    have hy : normalizeText t = jsTrim ((t.map Char.toLower).filter keepChar) :=
      normalizeText_ne_nil_eq t (by rw [hn]; exact List.cons_ne_nil c cs)
    rw [← hn, hy]
    exact jsTrim_jsTrim _

theorem wsTokensAux_chars (Q : Char → Prop) :
    ∀ (l acc : Str), (∀ x ∈ l, Q x) →
      (∀ x ∈ acc, Q x ∧ jsIsSpace x = false) →
      ∀ t ∈ wsTokensAux l acc, ∀ x ∈ t, Q x ∧ jsIsSpace x = false := by
  intro l
  induction l with
  | nil =>
    intro acc _ hacc t ht x hx
    by_cases h : acc = []
    · simp [wsTokensAux, h] at ht
    · simp only [wsTokensAux, h, if_false, List.mem_singleton] at ht
      subst ht
      exact hacc x (List.mem_reverse.mp hx)
  | cons c cs ih =>
    intro acc hl hacc t ht x hx
    by_cases hsp : jsIsSpace c
    · by_cases hac : acc = []
      · exact ih [] (fun y hy => hl y (List.mem_cons_of_mem c hy)) (by simp)
          t (by simpa [wsTokensAux, hsp, hac] using ht) x hx
      · simp only [wsTokensAux, hsp, if_true, hac, if_false] at ht
        rcases List.mem_cons.mp ht with rfl | ht
        · exact hacc x (List.mem_reverse.mp hx)
        · exact ih [] (fun y hy => hl y (List.mem_cons_of_mem c hy)) (by simp)
            t ht x hx
    · refine ih (c :: acc) (fun y hy => hl y (List.mem_cons_of_mem c hy)) ?_
        t (by simpa [wsTokensAux, hsp] using ht) x hx
      intro y hy
      rcases List.mem_cons.mp hy with rfl | hy
      · exact ⟨hl y (List.mem_cons_self y cs), by simpa using hsp⟩
      · exact hacc y hy

theorem searchKeywords_normalized (q k : Str) (h : k ∈ searchKeywords q) :
    normalizeText k = k := by
  rw [searchKeywords, jsSplitWs_filter, wsTokens] at h
  have hchars := wsTokensAux_chars (fun x => x ∈ normalizeText q)
    (normalizeText q) [] (fun x hx => hx) (by simp) k h
  rcases hk : k with _ | ⟨c, cs⟩
  · rw [normalizeText]; simp
  · subst hk
    have hmem : ∀ x ∈ c :: cs, keepChar x = true ∧ Char.toLower x = x :=
      fun x hx => mem_normalizeText q x (hchars x hx).1
    rw [normalizeText, if_neg (List.cons_ne_nil c cs), map_filter_id _ hmem,
      jsTrim]
    have hd : (c :: cs).dropWhile jsIsSpace = c :: cs := by
      rw [List.dropWhile_cons]
      simp [(hchars c (List.mem_cons_self c cs)).2]
    rw [hd]
    rw [List.rdropWhile_eq_self_iff]
    intro hl
    simp [(hchars _ (List.getLast_mem hl)).2]

/-- C10: `normalizeText` is idempotent, and every keyword produced from a
normalized query is already in normal form. -/
theorem normalizeText_idempotent :
    (∀ t : Str, normalizeText (normalizeText t) = normalizeText t) ∧
    ∀ (q k : Str), k ∈ searchKeywords q → normalizeText k = k :=
  ⟨normalizeText_idem, searchKeywords_normalized⟩

/-- Witness for C10 at concrete strings. -/
theorem normalizeText_idempotent_witness :
    normalizeText (normalizeText "  Hello, World! ".data) =
      normalizeText "  Hello, World! ".data ∧
    normalizeText "sonic".data = "sonic".data :=
  ⟨normalizeText_idempotent.1 _,
    normalizeText_idempotent.2 " Sonic rocks".data "sonic".data (by decide)⟩

end SonicHub
